import Mathlib

set_option maxRecDepth 8000

/-!
Verification development for the Magisk boot-stage core
(`src/native/jni/daemon/bootstages.cpp`).

The C++ code is shallowly embedded: the in-memory `node_entry` tree and the
operations on it (`insert`, `create_module_tree`, `clone_skeleton`,
`magic_mount`, `extract`), the module-registry scan in `prepare_img`, the
`check_data` decryption gate, the `simple_mount` walker and the
post-fs-data / late_start stage flags are translated into executable Lean
functions.  Filesystem state (the live system tree, the mirror, the module
image) is passed explicitly; mount/copy syscalls become emitted values in a
list.  Recursive tree walks take an explicit fuel argument (the C++ code
recurses over finite on-disk trees); top-level wrappers instantiate the fuel
with the node count of the finite tree being walked, which bounds the
recursion depth, so the wrappers compute exactly what the C++ walk does.
-/

namespace Bootstages

/-- Entry type as reported by `dirent.d_type` / used through the `IS_DIR`,
`IS_REG`, `IS_LNK` macros.  `unknown` stands for `d_type` values that are
none of `DT_DIR`, `DT_REG`, `DT_LNK` (in particular the default `type = 0`
of the `node_entry(const char *name, ...)` constructor). -/
inductive NType where
  | dir
  | reg
  | lnk
  | unknown
deriving DecidableEq, Repr

/-- The status bits of `node_entry` (bootstages.cpp lines 36-39).
Precedence comment in the source: MODULE > SKEL > INTER > DUMMY. -/
def IS_DUMMY : Nat := 1
/-- Status bit `IS_INTER` (0x02), intermediate node. -/
def IS_INTER : Nat := 2
/-- Status bit `IS_SKEL` (0x04), mount from skeleton. -/
def IS_SKEL : Nat := 4
/-- Status bit `IS_MODULE` (0x08), mount from module. -/
def IS_MODULE : Nat := 8

/-- The `node_entry` class: `module` (meaningful only when the `IS_MODULE`
bit is set; the C++ constructors that do not take a module leave the field
uninitialised, modelled as `""`), `name`, `type`, the `status` bitset and
the owned children.  The C++ `parent` back-pointer is used only to compute
absolute paths and the root test; the embedding passes the path and a root
flag down the recursions instead. -/
inductive NodeEntry where
  | mk (module : String) (name : String) (type : NType) (status : Nat)
       (children : List NodeEntry)

/-- Projection: owning module identifier. -/
def NodeEntry.module : NodeEntry → String
  | .mk m _ _ _ _ => m

/-- Projection: final path segment. -/
def NodeEntry.name : NodeEntry → String
  | .mk _ n _ _ _ => n

/-- Projection: entry type. -/
def NodeEntry.type : NodeEntry → NType
  | .mk _ _ t _ _ => t

/-- Projection: status bitset. -/
def NodeEntry.status : NodeEntry → Nat
  | .mk _ _ _ s _ => s

/-- Projection: children list. -/
def NodeEntry.children : NodeEntry → List NodeEntry
  | .mk _ _ _ _ cs => cs

/-- The body of `node_entry::insert` (bootstages.cpp lines 99-116) acting on
a children list: scan for the first child with the colliding name; if the
new node's status is strictly greater, the old child is destroyed and
replaced in place, otherwise the new node is discarded and the existing
child is the effective node; with no collision the node is appended.
Returns the updated children list together with the effective node. -/
def insertList (cs : List NodeEntry) (node : NodeEntry) :
    List NodeEntry × NodeEntry :=
  match cs with
  | [] => ([node], node)
  | c :: rest =>
    if c.name = node.name then
      if node.status > c.status then (node :: rest, node) else (c :: rest, c)
    else
      let r := insertList rest node
      (c :: r.1, r.2)

/-- Write back an updated child at the first position carrying `nm`
(the position `insert` returned the effective node from); models the C++
in-place mutation of the child through the reference obtained by `insert`. -/
def setByName (cs : List NodeEntry) (nm : String) (v : NodeEntry) :
    List NodeEntry :=
  match cs with
  | [] => []
  | c :: rest => if c.name = nm then v :: rest else c :: setByName rest nm v

/-- The placeholder node `new node_entry(name)` swapped in by
`node_entry::extract` (bootstages.cpp line 274): default status 0 (empty
status set), default type 0, no children, module field uninitialised. -/
def placeholderNode (nm : String) : NodeEntry :=
  .mk "" nm .unknown 0 []

/-- The body of `node_entry::extract` (bootstages.cpp lines 268-281) acting
on a children list: detach the first child named `nm` (the C++ code clears
its parent pointer, i.e. the subtree leaves the tree and is returned by
itself), substituting `placeholderNode nm`; with no match return `none` and
leave the children untouched. -/
def extractList (cs : List NodeEntry) (nm : String) :
    Option NodeEntry × List NodeEntry :=
  match cs with
  | [] => (none, [])
  | c :: rest =>
    if c.name = nm then (some c, placeholderNode nm :: rest)
    else
      let r := extractList rest nm
      (r.1, c :: r.2)

/-- `node_entry::extract` on a node. -/
def NodeEntry.extract (n : NodeEntry) (nm : String) :
    Option NodeEntry × NodeEntry :=
  let r := extractList n.children nm
  (r.1, .mk n.module n.name n.type n.status r.2)

/-- Sibling names are pairwise distinct (Bool form used as the tree
invariant `insert` maintains). -/
def namesNodup : List NodeEntry → Bool
  | [] => true
  | c :: rest => rest.all (fun d => !(d.name == c.name)) && namesNodup rest

mutual
/-- Node count of a finite node tree (an upper bound on its depth, used as
fuel for the recursive walks). -/
def NodeEntry.size : NodeEntry → Nat
  | .mk _ _ _ _ cs => 1 + nodeListSize cs
/-- Node count of a children list. -/
def nodeListSize : List NodeEntry → Nat
  | [] => 0
  | c :: rest => NodeEntry.size c + nodeListSize rest
end

/-- Recursive sibling-name uniqueness, with fuel (a bound on the tree
depth); `uniqNames` below instantiates the fuel sufficiently. -/
def uniqNamesF : Nat → NodeEntry → Bool
  | 0, _ => true
  | f + 1, n => namesNodup n.children && n.children.all (uniqNamesF f)

/-- Recursive sibling-name uniqueness of a node tree. -/
def uniqNames (n : NodeEntry) : Bool :=
  uniqNamesF n.size n

/-- What the live (read-only, pre-overlay) filesystem holds at a path, as
observable through the syscalls `create_module_tree` issues:
`access(path, F_OK)` and `xstat` (= `stat(2)`).  Both resolve symlinks, so
a path is `missing` when it is absent or a dangling symlink, and otherwise
resolves to a directory or regular file; `isLnk` records whether the path
itself is a (resolvable) symlink, which `stat(2)` cannot observe. -/
inductive LiveEntry where
  | missing
  | dir (isLnk : Bool)
  | reg (isLnk : Bool)
deriving DecidableEq, Repr

/-- `access(path, F_OK) == 0` for the live path. -/
def LiveEntry.accessOk : LiveEntry → Bool
  | .missing => false
  | _ => true

/-- The file type `stat(2)` reports for the live path.  `stat` follows
symlinks, so on success the reported type is that of the resolution target
(a directory or regular file) and is never `DT_LNK`. -/
def LiveEntry.statType : LiveEntry → Option NType
  | .missing => none
  | .dir _ => some .dir
  | .reg _ => some .reg

/-- Whether the live path is itself a symlink (what `lstat` would report);
used by the specification-side clone condition, not by the code. -/
def LiveEntry.isLnk : LiveEntry → Bool
  | .missing => false
  | .dir b => b
  | .reg b => b

/-- The live filesystem, addressed by path segments below `/`. -/
abbrev LiveFS := List String → LiveEntry

/-- A module's on-image content tree (below `<MOUNTPOINT>/<module>/system`).
A directory carries whether it contains a `.replace` marker together with
its entries. -/
inductive ModFS where
  | dir (replace : Bool) (entries : List (String × ModFS))
  | reg
  | lnk

/-- The `d_type` of a module entry as `readdir` reports it. -/
def ModFS.ntype : ModFS → NType
  | .dir _ _ => .dir
  | .reg => .reg
  | .lnk => .lnk

mutual
/-- Node count of a finite module tree (an upper bound on its depth, used
as fuel for `create_module_tree`). -/
def ModFS.size : ModFS → Nat
  | .dir _ es => 1 + modListSize es
  | .reg => 1
  | .lnk => 1
/-- Node count of a module directory listing. -/
def modListSize : List (String × ModFS) → Nat
  | [] => 0
  | e :: rest => ModFS.size e.2 + modListSize rest
end

/-- The loop body of `node_entry::create_module_tree` (bootstages.cpp lines
118-176) over the listing of `<MOUNTPOINT>/<module><path>`: for each entry
build a candidate node, evaluate the clone condition against the live
filesystem (`IS_LNK(node) || access(buf, F_OK) == -1`, then — unless the
entry is `vendor` at the tree root — `S_ISLNK` of the `xstat` result),
mark self `|= IS_SKEL` and the node `IS_MODULE` when cloning, otherwise
classify directories via the `.replace` marker and regular files as
`IS_MODULE`; insert, and when the effective node has `IS_SKEL` or
`IS_INTER` recurse into it (re-opening the module dir at the deeper path,
which fails for non-directories).  The state is the current node's status
and children; `fuel` bounds the recursion depth. -/
def cmtGo (live : LiveFS) (module : String) :
    Nat → List (String × ModFS) → Bool → List String → Nat →
    List NodeEntry → Nat × List NodeEntry
  | _, [], _, _, st, cs => (st, cs)
  | 0, _ :: _, _, _, st, cs => (st, cs)
  | f + 1, (nm, sub) :: rest, isRoot, path, st, cs =>
    if nm = "." ∨ nm = ".." then
      cmtGo live module f rest isRoot path st cs
    else
      let tgt := path ++ [nm]
      let clone : Bool :=
        sub.ntype = NType.lnk ∨ (live tgt).accessOk = false ∨
          (¬(isRoot = true ∧ nm = "vendor") ∧ (live tgt).statType = some NType.lnk)
      let stNode : Nat × Nat :=
        if clone then (st ||| IS_SKEL, IS_MODULE)
        else match sub with
          | .dir r _ => if r then (st, IS_MODULE) else (st, IS_INTER)
          | .reg => (st, IS_MODULE)
          | .lnk => (st, 0)
      let node : NodeEntry := .mk module nm sub.ntype stNode.2 []
      let ins := insertList cs node
      let cs' :=
        if ins.2.status &&& (IS_SKEL ||| IS_INTER) ≠ 0 then
          match sub with
          | .dir _ subEntries =>
            let rec2 := cmtGo live module f subEntries false tgt
              ins.2.status ins.2.children
            setByName ins.1 nm
              (.mk ins.2.module ins.2.name ins.2.type rec2.1 rec2.2)
          | _ => ins.1
        else ins.1
      cmtGo live module f rest isRoot path stNode.1 cs'

/-- `node_entry::create_module_tree(module)` on a node: open the module dir
at the node's path (`none`/non-directory means `xopendir` fails and the
node is left untouched) and run the loop.  `ModFS.size m` bounds the depth of
the finite module tree, so the fuel never runs out. -/
def create_module_tree (live : LiveFS) (module : String) (m : ModFS)
    (isRoot : Bool) (path : List String) (n : NodeEntry) : NodeEntry :=
  match m with
  | .dir _ entries =>
    let r := cmtGo live module m.size entries isRoot path n.status n.children
    .mk n.module n.name n.type r.1 r.2
  | _ => n

/-- An active module as the post-fs-data loop sees it: its registry name
and, when it has both an `auto_mount` marker and a `system` directory, that
directory's tree (`none` makes the loop skip the module). -/
structure ActiveModule where
  name : String
  systemTree : Option ModFS

/-- The module-loading loop of `post_fs_data` (bootstages.cpp lines
815-842): each auto_mount module with a `system` directory extends the
shared `/system` root tree in registry order. -/
def loadModules (live : LiveFS) (mods : List ActiveModule)
    (root : NodeEntry) : NodeEntry :=
  mods.foldl
    (fun r m =>
      match m.systemTree with
      | none => r
      | some t => create_module_tree live m.name t true ["system"] r)
    root

/-- The synthetic `/system` root node `new node_entry("system", IS_INTER)`
(bootstages.cpp line 807). -/
def sysRoot : NodeEntry := .mk "" "system" .unknown IS_INTER []

/-- Source of an emitted mount/copy: a module file under
`<MOUNTPOINT>/<module>/<path>`, a mirror file under `<MIRRDIR>/<path>`, or
the stale content of the shared `buf2` scratch buffer (reached only for a
status-0 child inside a skeleton, which the program's own trees never
produce at a non-root position). -/
inductive MntSrc where
  | module (m : String) (p : List String)
  | mirror (p : List String)
  | stale
deriving DecidableEq, Repr

/-- An emitted operation: `bind_mount(src, target)`, a tmpfs mount at a
target, or `cp_afc(src, target)` (a copy, not a mount). -/
inductive Mount where
  | bind (src : MntSrc) (target : List String)
  | tmpfs (target : List String)
  | copy (src : MntSrc) (target : List String)
deriving DecidableEq, Repr

/-- Targets of the bind-mount and tmpfs-mount operations in an emission
list (copies are not mounts). -/
def mountTargets (l : List Mount) : List (List String) :=
  l.filterMap fun m =>
    match m with
    | .bind _ t => some t
    | .tmpfs t => some t
    | .copy _ _ => none

/-- The mirror filesystem as `clone_skeleton` reads it: the listing of
`<MIRRDIR><path>` (`none` when `xopendir` fails), entries paired with
their `d_type`. -/
abbrev MirrorFS := List String → Option (List (String × NType))

/-- The dummy-insertion loop at the top of `node_entry::clone_skeleton`
(bootstages.cpp lines 188-194): every mirror entry except `.`/`..` is
inserted as a `IS_DUMMY` node (the `node_entry(name, status, type)`
constructor leaves `module` uninitialised). -/
def mergeDummies (cs : List NodeEntry) (listing : List (String × NType)) :
    List NodeEntry :=
  listing.foldl
    (fun acc e =>
      if e.1 = "." ∨ e.1 = ".." then acc
      else (insertList acc (.mk "" e.1 e.2 IS_DUMMY [])).1)
    cs

/-- The per-child tail of the `clone_skeleton` loop (bootstages.cpp lines
205-247): skip (and for a separate vendor partition, copy) the root-level
`vendor` child; otherwise bind from the module file, recurse into
skeleton/intermediate children, or bind from the mirror; symlink children
are copied instead of mounted; a status-0 child falls through to the mount
with whatever the scratch buffer `buf2` still holds. -/
def skelChild (sep : Bool) (root : Bool) (p : List String)
    (recf : NodeEntry → List Mount) (c : NodeEntry) : List Mount :=
  if root = true ∧ c.name = "vendor" then
    if sep then
      [.copy (.mirror ["system", "vendor"]) ["system", "vendor"]]
    else []
  else if c.status &&& IS_MODULE ≠ 0 then
    if c.type = NType.lnk then
      [.copy (.module c.module (p ++ [c.name])) (p ++ [c.name])]
    else
      [.bind (.module c.module (p ++ [c.name])) (p ++ [c.name])]
  else if c.status &&& (IS_SKEL ||| IS_INTER) ≠ 0 then
    recf c
  else if c.status &&& IS_DUMMY ≠ 0 then
    if c.type = NType.lnk then
      [.copy (.mirror (p ++ [c.name])) (p ++ [c.name])]
    else
      [.bind (.mirror (p ++ [c.name])) (p ++ [c.name])]
  else
    if c.type = NType.lnk then [.copy .stale (p ++ [c.name])]
    else [.bind .stale (p ++ [c.name])]

/-- `node_entry::clone_skeleton` (bootstages.cpp lines 178-248): list the
mirror at the node's path (an `xopendir` failure aborts with no mounts),
merge the mirror entries as dummies, tmpfs-mount the path itself when the
node carries `IS_SKEL`, then emit per-child operations, recursing into
skeleton/intermediate children.  `fuel` bounds the recursion depth. -/
def skelEmitF (fs : MirrorFS) (sep : Bool) :
    Nat → Bool → List String → NodeEntry → List Mount
  | 0, _, _, _ => []
  | f + 1, root, p, n =>
    match fs p with
    | none => []
    | some listing =>
      (if n.status &&& IS_SKEL ≠ 0 then [Mount.tmpfs p] else []) ++
        (mergeDummies n.children listing).flatMap
          (skelChild sep root p
            (fun c => skelEmitF fs sep f false (p ++ [c.name]) c))

/-- `node_entry::magic_mount` (bootstages.cpp lines 250-266): an
`IS_MODULE` node emits one bind-mount from the module file to its path; an
`IS_SKEL` node is cloned with a skeleton; an `IS_INTER` node recurses into
its children; anything else (the vendor placeholder) emits nothing. -/
def magicMountF (fs : MirrorFS) (sep : Bool) :
    Nat → Bool → List String → NodeEntry → List Mount
  | 0, _, _, _ => []
  | f + 1, root, p, n =>
    if n.status &&& IS_MODULE ≠ 0 then
      [.bind (.module n.module p) p]
    else if n.status &&& IS_SKEL ≠ 0 then
      skelEmitF fs sep (f + 1) root p n
    else if n.status &&& IS_INTER ≠ 0 then
      n.children.flatMap (fun c => magicMountF fs sep f false (p ++ [c.name]) c)
    else []

/-- `magic_mount` on a whole tree rooted at `p`; `NodeEntry.size n` bounds the
depth of the finite tree, so the fuel never runs out. -/
def magic_mount (fs : MirrorFS) (sep : Bool) (root : Bool) (p : List String)
    (n : NodeEntry) : List Mount :=
  magicMountF fs sep n.size root p n

/-- Find the first child with a given name (the lookup the `insert` loop
performs). -/
def findChild (cs : List NodeEntry) (nm : String) : Option NodeEntry :=
  cs.find? (fun c => c.name = nm)

/-- Descend from a node along a list of child names. -/
def nodeAt : NodeEntry → List String → Option NodeEntry
  | n, [] => some n
  | n, x :: xs =>
    match findChild n.children x with
    | some c => nodeAt c xs
    | none => none

/-- The `owner_module` recorded at a path below a node. -/
def ownerAt (n : NodeEntry) (p : List String) : Option String :=
  (nodeAt n p).map NodeEntry.module

/-- The clone condition as the specification states it: the module entry is
a symlink, or the target path does not exist in the live system, or the
target is itself a symlink — with the single exception of the entry named
`vendor` at the tree root. -/
def specCloneCond (live : LiveFS) (isRoot : Bool) (path : List String)
    (nm : String) (entryType : NType) : Bool :=
  entryType = NType.lnk ∨ (live (path ++ [nm])).accessOk = false ∨
    (¬(isRoot = true ∧ nm = "vendor") ∧ (live (path ++ [nm])).isLnk = true)

/-- A candidate top-level entry of the mounted module image as the
`prepare_img` enumeration loop sees it: its name, whether `readdir` reports
it as a directory, and whether the `remove` / `disable` marker files exist
inside it. -/
structure ModCand where
  name : String
  isDir : Bool
  hasRemove : Bool
  hasDisable : Bool
deriving DecidableEq, Repr

/-- Effects of the `prepare_img` module enumeration: the materialised
`module_list`, the module directories handed to `rm_rf`, and the modules
whose `update` marker was `unlink`ed. -/
structure ScanResult where
  modules : List String
  removed : List String
  cleared : List String
deriving DecidableEq, Repr

/-- The names `prepare_img` always skips: `.`, `..`, `.core`,
`lost+found`. -/
def specialName (s : String) : Bool :=
  s = "." ∨ s = ".." ∨ s = ".core" ∨ s = "lost+found"

/-- The module enumeration loop of `prepare_img` (bootstages.cpp lines
423-446): only directory entries are considered; special names are
skipped; a `remove` marker deletes the directory and excludes the module
(its `update` marker is left alone); otherwise `update` is always
unlinked, and a `disable` marker excludes the module from the list without
deleting anything. -/
def scanModules : List ModCand → ScanResult
  | [] => ⟨[], [], []⟩
  | e :: rest =>
    let r := scanModules rest
    if e.isDir = false then r
    else if specialName e.name then r
    else if e.hasRemove then { r with removed := e.name :: r.removed }
    else if e.hasDisable then { r with cleared := e.name :: r.cleared }
    else { r with modules := e.name :: r.modules,
                  cleared := e.name :: r.cleared }

/-- Modelled from the spec: `CharArray::contains` is declared in utils.h
but its body is outside the provided sources; the spec reads
`/proc/mounts` lines for containment of `" /data "` and `"tmpfs"`, i.e.
standard substring search. -/
def hasSub (hay pat : List Char) : Bool :=
  pat.isPrefixOf hay ||
    match hay with
    | [] => false
    | _ :: t => hasSub t pat

/-- The system state `check_data` samples: the lines of `/proc/mounts` and
the property store (`getprop`; an unset property reads as `""`, matching
`CharArray::empty`). -/
structure SysEnv where
  mounts : List String
  props : String → String

/-- `check_data` (bootstages.cpp lines 478-503): some `/proc/mounts` line
must contain `" /data "` and not contain `"tmpfs"`; then, if
`ro.crypto.state` is set, data is usable when it equals `"unencrypted"`,
or otherwise when `init.svc.vold` is populated; an unset `ro.crypto.state`
is assumed unencrypted. -/
def check_data (env : SysEnv) : Bool :=
  let mnt := env.mounts.any fun l =>
    hasSub l.data " /data ".data && !(hasSub l.data "tmpfs".data)
  if mnt then
    let crypto := env.props "ro.crypto.state"
    if crypto = "" then true
    else if crypto = "unencrypted" then true
    else env.props "init.svc.vold" ≠ ""
  else false

/-- The source tree under `<SIMPLEMOUNT><path>`, as `simple_mount` walks
it: directories with entries, regular files, and anything else (which the
walker ignores: neither `DT_DIR` nor `DT_REG`). -/
inductive SimpleFS where
  | dir (entries : List (String × SimpleFS))
  | reg
  | other

mutual
/-- Node count of a finite simple-mount source tree (fuel bound). -/
def SimpleFS.size : SimpleFS → Nat
  | .dir es => 1 + simpleListSize es
  | .reg => 1
  | .other => 1
/-- Node count of a simple-mount directory listing. -/
def simpleListSize : List (String × SimpleFS) → Nat
  | [] => 0
  | e :: rest => SimpleFS.size e.2 + simpleListSize rest
end

/-- An operation emitted by `simple_mount`: `clone_attr(target, source)`
(attributes flow target → source overlay file) or
`bind_mount(source, target)`.  The source is always the target path under
the `SIMPLEMOUNT` root, so the target path determines both. -/
inductive SOp where
  | cloneAttr (target : List String)
  | bind (target : List String)
deriving DecidableEq, Repr

/-- Target path of a `simple_mount` operation. -/
def SOp.target : SOp → List String
  | .cloneAttr t => t
  | .bind t => t

/-- `simple_mount(path)` (bootstages.cpp lines 348-379): enumerate the
source directory (an `opendir` failure — in particular a non-directory —
emits nothing), skip `.`/`..`, skip entries whose target path does not
exist (`access`), recurse into source subdirectories, and for regular
source files clone attributes from the target onto the source file and
bind-mount source onto target.  `fuel` bounds the recursion depth. -/
def simpleMountF (lv : List String → Bool) :
    Nat → List String → SimpleFS → List SOp
  | _, _, .reg => []
  | _, _, .other => []
  | 0, _, .dir _ => []
  | fuel + 1, p, .dir es =>
    es.flatMap fun e =>
      if e.1 = "." ∨ e.1 = ".." then []
      else if lv (p ++ [e.1]) = false then []
      else
        match e.2 with
        | .dir es2 => simpleMountF lv fuel (p ++ [e.1]) (.dir es2)
        | .reg => [.cloneAttr (p ++ [e.1]), .bind (p ++ [e.1])]
        | .other => []

/-- `simple_mount` over a whole source tree rooted at `p`. -/
def simple_mount (lv : List String → Bool) (p : List String)
    (fs : SimpleFS) : List SOp :=
  simpleMountF lv fs.size p fs

/-- Specification-side predicate for `simple_mount`: the relative path
`rel` names a regular file in the source tree reachable through
non-`.`/`..` segments all of whose targets exist in the live system.
Compared against the emitted bind-mounts in the refinement theorem. -/
def reachesReg (lv : List String → Bool) :
    List String → List (String × SimpleFS) → List String → Bool
  | _, _, [] => false
  | p, es, nm :: rest =>
    !(nm = "." ∨ nm = "..") && lv (p ++ [nm]) &&
      match rest with
      | [] =>
        es.any fun e =>
          e.1 = nm && match e.2 with | .reg => true | _ => false
      | _ :: _ =>
        es.any fun e =>
          e.1 = nm && match e.2 with
            | .dir es2 => reachesReg lv (p ++ [nm]) es2 rest
            | _ => false

/-- The process-global daemon state relevant to the boot-stage claims. -/
structure DState where
  setup_done : Bool
deriving DecidableEq, Repr

/-- Observable milestones of a `post_fs_data` run. -/
inductive BootEv where
  | ack
  | setSetupDone
  | prepareImg (ok : Bool)
  | coreOnly
  | moduleMagic
deriving DecidableEq, Repr

/-- The control flow of `post_fs_data` (bootstages.cpp lines 766-858) at
the granularity of the claims: the client is acknowledged, then
`setup_done = 1` is executed unconditionally ("If post-fs-data mode is
started, it means startup succeeded"), then `prepare_img()` runs; on
failure the daemon falls back to core-only mode, on success the module
pipeline runs and then core-only work follows. -/
def post_fs_data_run (imgOk : Bool) (s : DState) : DState × List BootEv :=
  ({ s with setup_done := true },
   [.ack, .setSetupDone, .prepareImg imgOk] ++
     (if imgOk then [.moduleMagic, .coreOnly] else [.coreOnly]))

/-- The `late_start` guard (bootstages.cpp lines 871-875): the device is
rebooted exactly when `setup_done` is still unset. -/
def late_start_reboots (s : DState) : Bool :=
  !s.setup_done

/-! Concrete scenario used for claims C1: two modules `a` and `b`
(registry order `[a, b]`) each providing the regular file
`system/lib/libx.so`, which exists (and is not a symlink) in the live
system. -/

/-- Live filesystem for the two-module scenario: `/system/lib` is a real
directory, `/system/lib/libx.so` a real regular file. -/
def twoModLive : LiveFS := fun p =>
  if p = ["system", "lib"] then .dir false
  else if p = ["system", "lib", "libx.so"] then .reg false
  else .missing

/-- The (identical) content both modules ship: `system/lib/libx.so`. -/
def twoModTree : ModFS :=
  .dir false [("lib", .dir false [("libx.so", .reg)])]

/-- The composed tree after walking module `a` and then module `b`
(registry order `[a, b]`), exactly as the `post_fs_data` loop does. -/
def twoModComposed : NodeEntry :=
  loadModules twoModLive
    [⟨"a", some twoModTree⟩, ⟨"b", some twoModTree⟩] sysRoot

/-! Concrete scenario used for claim C3: a module ships the regular file
`system/egg`, and in the live system `/system/egg` is a (resolvable)
symlink whose target is a regular file. -/

/-- Live filesystem for the C3 scenario: `/system/egg` resolves to a
regular file but is itself a symlink. -/
def lnkTgtLive : LiveFS := fun p =>
  if p = ["system", "egg"] then .reg true else .missing

/-- The module content for the C3 scenario: a single regular file `egg`. -/
def lnkTgtTree : ModFS := .dir false [("egg", .reg)]

/-- The tree `create_module_tree` builds in the C3 scenario. -/
def lnkTgtResult : NodeEntry :=
  create_module_tree lnkTgtLive "m" lnkTgtTree true ["system"] sysRoot

end Bootstages

namespace Bootstages

/-! Helper lemmas about the list operations. -/

/-- Cancelling a common front part of two paths. -/
theorem append_cancel {α : Type} (p : List α) {a b : List α}
    (h : p ++ a = p ++ b) : a = b := by
  induction p with
  | nil => simpa using h
  | cons x xs ih => exact ih (by simpa using h)

/-- Reading `namesNodup` off a cons cell. -/
theorem namesNodup_cons {c : NodeEntry} {rest : List NodeEntry} :
    namesNodup (c :: rest) = true ↔
      (∀ d ∈ rest, d.name ≠ c.name) ∧ namesNodup rest = true := by
  simp [namesNodup, List.all_eq_true]

/-- `insert` with no name collision appends the node. -/
theorem insertList_nomatch {cs : List NodeEntry} {v : NodeEntry}
    (h : ∀ c ∈ cs, c.name ≠ v.name) : insertList cs v = (cs ++ [v], v) := by
  induction cs with
  | nil => rfl
  | cons c rest ih =>
    have hc : c.name ≠ v.name := h c (by simp)
    simp only [insertList, if_neg hc]
    rw [ih (fun d hd => h d (by simp [hd]))]
    simp

/-- `insert` at the first name collision: strictly greater status replaces
the existing child in place, otherwise the new node is discarded and the
existing child is effective. -/
theorem insertList_match {l1 l2 : List NodeEntry} {c v : NodeEntry}
    (h1 : ∀ d ∈ l1, d.name ≠ v.name) (hc : c.name = v.name) :
    insertList (l1 ++ c :: l2) v =
      if v.status > c.status then (l1 ++ v :: l2, v)
      else (l1 ++ c :: l2, c) := by
  induction l1 with
  | nil =>
    simp only [List.nil_append, insertList, if_pos hc]
  | cons d rest ih =>
    have hd : d.name ≠ v.name := h1 d (by simp)
    have ih' := ih (fun x hx => h1 x (by simp [hx]))
    simp only [List.cons_append, insertList, if_neg hd, List.append_eq, ih']
    split <;> rfl

/-- Members of the list `insert` returns come from the old list or are the
inserted node. -/
theorem insertList_mem {cs : List NodeEntry} {v d : NodeEntry}
    (h : d ∈ (insertList cs v).1) : d ∈ cs ∨ d = v := by
  induction cs with
  | nil => simpa [insertList] using h
  | cons c rest ih =>
    by_cases hc : c.name = v.name
    · simp only [insertList, if_pos hc] at h
      by_cases hs : v.status > c.status
      · rw [if_pos hs] at h
        rcases List.mem_cons.1 h with h | h
        · exact Or.inr h
        · exact Or.inl (List.mem_cons_of_mem _ h)
      · rw [if_neg hs] at h
        exact Or.inl h
    · simp only [insertList, if_neg hc] at h
      rcases List.mem_cons.1 h with h | h
      · exact Or.inl (by simp [h])
      · rcases ih h with h | h
        · exact Or.inl (List.mem_cons_of_mem _ h)
        · exact Or.inr h

/-- `insert` preserves sibling-name uniqueness. -/
theorem insertList_namesNodup {cs : List NodeEntry} {v : NodeEntry}
    (h : namesNodup cs = true) : namesNodup (insertList cs v).1 = true := by
  induction cs with
  | nil => simp [insertList, namesNodup]
  | cons c rest ih =>
    rcases namesNodup_cons.1 h with ⟨hhead, hrest⟩
    by_cases hc : c.name = v.name
    · simp only [insertList, if_pos hc]
      by_cases hs : v.status > c.status
      · rw [if_pos hs]
        exact namesNodup_cons.2 ⟨fun d hd => hc ▸ hhead d hd, hrest⟩
      · rw [if_neg hs]
        exact h
    · simp only [insertList, if_neg hc]
      refine namesNodup_cons.2 ⟨?_, ih hrest⟩
      intro d hd
      rcases insertList_mem hd with h' | h'
      · exact hhead d h'
      · rw [h']
        exact fun hvc => hc hvc.symm

/-- The names `mergeDummies` can add are mirror entry names; every merged
child is an original child or a freshly created dummy (status `IS_DUMMY`). -/
theorem mergeDummies_mem {cs : List NodeEntry}
    {listing : List (String × NType)} {d : NodeEntry}
    (h : d ∈ mergeDummies cs listing) :
    d ∈ cs ∨ d.status = IS_DUMMY := by
  induction listing generalizing cs with
  | nil => exact Or.inl (by simpa [mergeDummies] using h)
  | cons e rest ih =>
    simp only [mergeDummies, List.foldl_cons] at h
    by_cases he : e.1 = "." ∨ e.1 = ".."
    · rw [if_pos he] at h
      exact ih (by simpa [mergeDummies] using h)
    · rw [if_neg he] at h
      rcases ih (by simpa [mergeDummies] using h) with h' | h'
      · rcases insertList_mem h' with h'' | h''
        · exact Or.inl h''
        · exact Or.inr (by simp [h'', NodeEntry.status])
      · exact Or.inr h'

/-- `mergeDummies` preserves sibling-name uniqueness. -/
theorem mergeDummies_namesNodup {cs : List NodeEntry}
    {listing : List (String × NType)} (h : namesNodup cs = true) :
    namesNodup (mergeDummies cs listing) = true := by
  induction listing generalizing cs with
  | nil => simpa [mergeDummies] using h
  | cons e rest ih =>
    simp only [mergeDummies, List.foldl_cons]
    by_cases he : e.1 = "." ∨ e.1 = ".."
    · rw [if_pos he]
      exact ih h
    · rw [if_neg he]
      exact ih (insertList_namesNodup h)

/-- `extract` with no matching child changes nothing. -/
theorem extractList_nomatch {cs : List NodeEntry} {nm : String}
    (h : ∀ c ∈ cs, c.name ≠ nm) : extractList cs nm = (none, cs) := by
  induction cs with
  | nil => rfl
  | cons c rest ih =>
    have hc : c.name ≠ nm := h c (by simp)
    simp only [extractList, if_neg hc]
    rw [ih (fun d hd => h d (by simp [hd]))]

/-- `extract` at the first matching child swaps in the placeholder. -/
theorem extractList_match {l1 l2 : List NodeEntry} {c : NodeEntry}
    {nm : String} (h1 : ∀ d ∈ l1, d.name ≠ nm) (hc : c.name = nm) :
    extractList (l1 ++ c :: l2) nm =
      (some c, l1 ++ placeholderNode nm :: l2) := by
  induction l1 with
  | nil => simp [extractList, if_pos hc]
  | cons d rest ih =>
    have hd : d.name ≠ nm := h1 d (by simp)
    have ih' := ih (fun x hx => h1 x (by simp [hx]))
    simp only [List.cons_append, extractList, if_neg hd, List.append_eq, ih']

/-- A detached node returned by `extract` was a child with the requested
name. -/
theorem extractList_some {cs : List NodeEntry} {nm : String} {x : NodeEntry}
    (h : (extractList cs nm).1 = some x) : x ∈ cs ∧ x.name = nm := by
  induction cs with
  | nil => simp [extractList] at h
  | cons c rest ih =>
    by_cases hc : c.name = nm
    · simp only [extractList, if_pos hc] at h
      cases h
      exact ⟨by simp, hc⟩
    · simp only [extractList, if_neg hc] at h
      rcases ih h with ⟨hmem, hnm⟩
      exact ⟨List.mem_cons_of_mem _ hmem, hnm⟩

/-! The claim theorems. -/

/-- C4: on a name collision, `insert` destroys and replaces the existing
subtree exactly when the new node's status is strictly higher in the
precedence order (MODULE, SKEL, INTER, DUMMY — realised by the numeric
order of the status bits), and otherwise discards the new node and returns
the existing child; without a collision the node is appended; in all cases
sibling names stay unique. -/
theorem insert_precedence_resolution :
    (IS_MODULE > IS_SKEL ∧ IS_SKEL > IS_INTER ∧ IS_INTER > IS_DUMMY) ∧
    ∀ (cs : List NodeEntry) (v : NodeEntry),
      ((∀ c ∈ cs, c.name ≠ v.name) → insertList cs v = (cs ++ [v], v)) ∧
      (∀ (l1 l2 : List NodeEntry) (c : NodeEntry),
        cs = l1 ++ c :: l2 → (∀ d ∈ l1, d.name ≠ v.name) → c.name = v.name →
          insertList cs v =
            if v.status > c.status then (l1 ++ v :: l2, v)
            else (cs, c)) ∧
      (namesNodup cs = true → namesNodup (insertList cs v).1 = true) := by
  refine ⟨by simp [IS_MODULE, IS_SKEL, IS_INTER, IS_DUMMY], fun cs v => ⟨?_, ?_, ?_⟩⟩
  · exact insertList_nomatch
  · intro l1 l2 c hcs h1 hc
    subst hcs
    rw [insertList_match h1 hc]
  · exact insertList_namesNodup

/-- Witness for `insert_precedence_resolution`: a MODULE node colliding
with an INTER child replaces it; an equal-status collision keeps the
existing child; names stay unique. -/
theorem insert_precedence_resolution_witness :
    insertList [NodeEntry.mk "a" "x" .dir IS_INTER []]
        (NodeEntry.mk "b" "x" .dir IS_MODULE []) =
      ([NodeEntry.mk "b" "x" .dir IS_MODULE []],
        NodeEntry.mk "b" "x" .dir IS_MODULE []) ∧
    insertList [NodeEntry.mk "a" "x" .reg IS_MODULE []]
        (NodeEntry.mk "b" "x" .reg IS_MODULE []) =
      ([NodeEntry.mk "a" "x" .reg IS_MODULE []],
        NodeEntry.mk "a" "x" .reg IS_MODULE []) ∧
    namesNodup (insertList [NodeEntry.mk "a" "x" .dir IS_INTER []]
        (NodeEntry.mk "b" "y" .dir IS_MODULE [])).1 = true := by
  refine ⟨?_, ?_, ?_⟩
  · have h := ((insert_precedence_resolution.2
      [NodeEntry.mk "a" "x" .dir IS_INTER []]
      (NodeEntry.mk "b" "x" .dir IS_MODULE [])).2.1
      [] [] (NodeEntry.mk "a" "x" .dir IS_INTER []) rfl (by simp) (by decide))
    rw [h]
    rfl
  · have h := ((insert_precedence_resolution.2
      [NodeEntry.mk "a" "x" .reg IS_MODULE []]
      (NodeEntry.mk "b" "x" .reg IS_MODULE [])).2.1
      [] [] (NodeEntry.mk "a" "x" .reg IS_MODULE []) rfl (by simp) (by decide))
    rw [h]
    rfl
  · exact (insert_precedence_resolution.2
      [NodeEntry.mk "a" "x" .dir IS_INTER []]
      (NodeEntry.mk "b" "y" .dir IS_MODULE [])).2.2 (by decide)

/-- C10: `extract` returns `none` and leaves the children unchanged when no
direct child carries the name; it returns a detached child only when one
with that name existed, in which case the first such child is handed back
and replaced in place by a placeholder with an empty status set and no
children. -/
theorem extract_detaches_or_noops :
    ∀ (cs : List NodeEntry) (nm : String),
      ((∀ c ∈ cs, c.name ≠ nm) → extractList cs nm = (none, cs)) ∧
      (∀ x, (extractList cs nm).1 = some x → x ∈ cs ∧ x.name = nm) ∧
      (∀ (l1 l2 : List NodeEntry) (c : NodeEntry),
        cs = l1 ++ c :: l2 → (∀ d ∈ l1, d.name ≠ nm) → c.name = nm →
          extractList cs nm = (some c, l1 ++ placeholderNode nm :: l2) ∧
          (placeholderNode nm).status = 0 ∧
          (placeholderNode nm).children = []) := by
  intro cs nm
  refine ⟨extractList_nomatch, fun x h => extractList_some h, ?_⟩
  intro l1 l2 c hcs h1 hc
  subst hcs
  exact ⟨extractList_match h1 hc, rfl, rfl⟩

/-- Witness for `extract_detaches_or_noops`: extracting `vendor` from a
two-child list detaches the vendor child and swaps in the empty-status
placeholder; extracting a missing name is a no-op. -/
theorem extract_detaches_or_noops_witness :
    extractList [NodeEntry.mk "" "bin" .dir IS_INTER [],
        NodeEntry.mk "m" "vendor" .dir IS_INTER []] "vendor" =
      (some (NodeEntry.mk "m" "vendor" .dir IS_INTER []),
       [NodeEntry.mk "" "bin" .dir IS_INTER [], placeholderNode "vendor"]) ∧
    extractList [NodeEntry.mk "" "bin" .dir IS_INTER []] "vendor" =
      (none, [NodeEntry.mk "" "bin" .dir IS_INTER []]) := by
  constructor
  · exact ((extract_detaches_or_noops
      [NodeEntry.mk "" "bin" .dir IS_INTER [],
        NodeEntry.mk "m" "vendor" .dir IS_INTER []] "vendor").2.2
      [NodeEntry.mk "" "bin" .dir IS_INTER []] []
      (NodeEntry.mk "m" "vendor" .dir IS_INTER []) rfl (by decide) rfl).1
  · exact (extract_detaches_or_noops
      [NodeEntry.mk "" "bin" .dir IS_INTER []] "vendor").1 (by decide)

/-- C2 counterexample: with image preparation failing, `post_fs_data`
still sets `setup_done` (it is set on entry, before `prepare_img`), and a
subsequent `late_start` does not reboot — contradicting the claim that
`setup_done` would remain unset and the device would reboot. -/
theorem setup_done_set_despite_img_failure :
    (post_fs_data_run false ⟨false⟩).1.setup_done = true ∧
    late_start_reboots (post_fs_data_run false ⟨false⟩).1 = false := by
  decide

/-- C2 (amended): `setup_done` is set unconditionally on entering
post-fs-data, before image preparation runs (the trace records the flag
strictly before the `prepare_img` outcome); hence after any `post_fs_data`
run — image preparation succeeding or not — `late_start` does not reboot,
and `late_start` reboots exactly when `setup_done` is still unset. -/
theorem setup_done_set_on_entry :
    ∀ (imgOk : Bool) (s : DState),
      (post_fs_data_run imgOk s).1.setup_done = true ∧
      late_start_reboots (post_fs_data_run imgOk s).1 = false ∧
      ((post_fs_data_run imgOk s).2.indexOf BootEv.setSetupDone <
        (post_fs_data_run imgOk s).2.indexOf (BootEv.prepareImg imgOk)) ∧
      (∀ s' : DState, late_start_reboots s' = !s'.setup_done) := by
  intro imgOk s
  refine ⟨rfl, rfl, ?_, fun s' => rfl⟩
  cases imgOk
  · change List.indexOf _ [BootEv.ack, BootEv.setSetupDone,
      BootEv.prepareImg false, BootEv.coreOnly] < List.indexOf _
      [BootEv.ack, BootEv.setSetupDone, BootEv.prepareImg false,
        BootEv.coreOnly]
    decide
  · change List.indexOf _ [BootEv.ack, BootEv.setSetupDone,
      BootEv.prepareImg true, BootEv.moduleMagic, BootEv.coreOnly] <
      List.indexOf _ [BootEv.ack, BootEv.setSetupDone,
        BootEv.prepareImg true, BootEv.moduleMagic, BootEv.coreOnly]
    decide

/-- C1 counterexample: with registry order `[a, b]` and both modules
contributing the same regular file `system/lib/libx.so` (same type, live
target present), the composed tree's owner at that path is `a`, not `b` —
the later, equal-status insert is discarded. -/
theorem same_file_owner_not_last :
    ownerAt twoModComposed ["lib", "libx.so"] = some "a" ∧
    ¬ ownerAt twoModComposed ["lib", "libx.so"] = some "b" := by
  decide

/-- C1 (amended): when two modules `a` and `b` (registry order `[a, b]`)
each contribute a regular file at the same path with the same type, the
effective node's `owner_module` after composition is `a` — the module
inserted first, because the second insert's status is not strictly greater
and is discarded — and the single emitted bind-mount sources `a`'s file
while `b`'s contribution is dropped during insert. -/
theorem same_file_first_module_wins :
    ownerAt twoModComposed ["lib", "libx.so"] = some "a" ∧
    magic_mount (fun _ => none) false true ["system"] twoModComposed =
      [.bind (.module "a" ["system", "lib", "libx.so"])
        ["system", "lib", "libx.so"]] := by
  decide

/-- Membership in the three effect lists of the `prepare_img` module scan,
characterised entry-wise. -/
theorem scanModules_mem (es : List ModCand) (m : String) :
    (m ∈ (scanModules es).modules ↔ ∃ e ∈ es, e.name = m ∧ e.isDir = true ∧
        specialName e.name = false ∧ e.hasRemove = false ∧
        e.hasDisable = false) ∧
    (m ∈ (scanModules es).removed ↔ ∃ e ∈ es, e.name = m ∧ e.isDir = true ∧
        specialName e.name = false ∧ e.hasRemove = true) ∧
    (m ∈ (scanModules es).cleared ↔ ∃ e ∈ es, e.name = m ∧ e.isDir = true ∧
        specialName e.name = false ∧ e.hasRemove = false) := by
  induction es with
  | nil => simp [scanModules]
  | cons e rest ih =>
    obtain ⟨ih1, ih2, ih3⟩ := ih
    by_cases h1 : e.isDir = false
    · simp [scanModules, h1, ih1, ih2, ih3, List.exists_mem_cons_iff]
    · rw [Bool.not_eq_false] at h1
      by_cases h2 : specialName e.name = true
      · simp [scanModules, h1, h2, ih1, ih2, ih3, List.exists_mem_cons_iff]
      · rw [Bool.not_eq_true] at h2
        by_cases h3 : e.hasRemove = true
        · simp [scanModules, h1, h2, h3, ih1, ih2, ih3,
            List.exists_mem_cons_iff]
          rw [eq_comm]
        · rw [Bool.not_eq_true] at h3
          by_cases h4 : e.hasDisable = true
          · simp [scanModules, h1, h2, h3, h4, ih1, ih2, ih3,
              List.exists_mem_cons_iff]
            rw [eq_comm]
          · rw [Bool.not_eq_true] at h4
            simp [scanModules, h1, h2, h3, h4, ih1, ih2, ih3,
              List.exists_mem_cons_iff]
            constructor <;> rw [eq_comm]

/-- Names are unique among directory-listing entries, so an entry is
pinned down by its name. -/
theorem nodup_name_unique {es : List ModCand}
    (hnd : (es.map ModCand.name).Nodup) {e e' : ModCand}
    (he : e ∈ es) (he' : e' ∈ es) (hn : e.name = e'.name) : e = e' := by
  induction es with
  | nil => cases he
  | cons a rest ih =>
    rw [List.map_cons, List.nodup_cons] at hnd
    rcases List.mem_cons.1 he with rfl | he2
    · rcases List.mem_cons.1 he' with rfl | he2'
      · rfl
      · have hmem : e.name ∈ rest.map ModCand.name := by
          rw [hn]
          exact List.mem_map_of_mem _ he2'
        exact absurd hmem hnd.1
    · rcases List.mem_cons.1 he' with rfl | he2'
      · have hmem : e'.name ∈ rest.map ModCand.name := by
          rw [← hn]
          exact List.mem_map_of_mem _ he2
        exact absurd hmem hnd.1
      · exact ih hnd.2 he2 he2'

/-- C7: in the `prepare_img` enumeration, for every candidate directory
entry: a `remove` marker recursively deletes the directory, excludes the
module and skips the `update` unlink; otherwise `update` is always
unlinked; a `disable` marker excludes the module without deleting it; and
`.`, `..`, `.core`, `lost+found` never reach any effect list. -/
theorem prepare_img_scan_effects (es : List ModCand)
    (hnd : (es.map ModCand.name).Nodup) :
    (∀ m, specialName m = true →
      m ∉ (scanModules es).modules ∧ m ∉ (scanModules es).removed ∧
      m ∉ (scanModules es).cleared) ∧
    ∀ e ∈ es, e.isDir = true → specialName e.name = false →
      (e.hasRemove = true → e.name ∈ (scanModules es).removed ∧
        e.name ∉ (scanModules es).modules ∧
        e.name ∉ (scanModules es).cleared) ∧
      (e.hasRemove = false → e.name ∈ (scanModules es).cleared ∧
        e.name ∉ (scanModules es).removed) ∧
      (e.hasRemove = false → e.hasDisable = true →
        e.name ∉ (scanModules es).modules) ∧
      (e.hasRemove = false → e.hasDisable = false →
        e.name ∈ (scanModules es).modules) := by
  have hm := fun m => (scanModules_mem es m).1
  have hr := fun m => (scanModules_mem es m).2.1
  have hc := fun m => (scanModules_mem es m).2.2
  constructor
  · intro m hspec
    refine ⟨?_, ?_, ?_⟩
    · intro h
      rcases (hm m).1 h with ⟨e, _, rfl, _, hs, _⟩
      rw [hspec] at hs
      cases hs
    · intro h
      rcases (hr m).1 h with ⟨e, _, rfl, _, hs, _⟩
      rw [hspec] at hs
      cases hs
    · intro h
      rcases (hc m).1 h with ⟨e, _, rfl, _, hs, _⟩
      rw [hspec] at hs
      cases hs
  · intro e he hdir hspec
    refine ⟨fun hrem => ⟨?_, ?_, ?_⟩, fun hrem => ⟨?_, ?_⟩,
      fun hrem hdis => ?_, fun hrem hdis => ?_⟩
    · exact (hr e.name).2 ⟨e, he, rfl, hdir, hspec, hrem⟩
    · intro h
      rcases (hm e.name).1 h with ⟨e', he', hn, _, _, hrem', _⟩
      rw [nodup_name_unique hnd he he' hn.symm] at hrem
      rw [hrem] at hrem'
      cases hrem'
    · intro h
      rcases (hc e.name).1 h with ⟨e', he', hn, _, _, hrem'⟩
      rw [nodup_name_unique hnd he he' hn.symm] at hrem
      rw [hrem] at hrem'
      cases hrem'
    · exact (hc e.name).2 ⟨e, he, rfl, hdir, hspec, hrem⟩
    · intro h
      rcases (hr e.name).1 h with ⟨e', he', hn, _, _, hrem'⟩
      rw [nodup_name_unique hnd he he' hn.symm] at hrem
      rw [hrem] at hrem'
      cases hrem'
    · intro h
      rcases (hm e.name).1 h with ⟨e', he', hn, _, _, _, hdis'⟩
      rw [nodup_name_unique hnd he he' hn.symm] at hdis
      rw [hdis] at hdis'
      cases hdis'
    · exact (hm e.name).2 ⟨e, he, rfl, hdir, hspec, hrem, hdis⟩

/-- Witness for `prepare_img_scan_effects` on a concrete listing: a module
with `remove`, one with `disable`, a plain module and the skipped
`lost+found` entry. -/
theorem prepare_img_scan_effects_witness :
    "lost+found" ∉ (scanModules [⟨"zap", true, true, false⟩,
      ⟨"off", true, false, true⟩, ⟨"mod", true, false, false⟩,
      ⟨"lost+found", true, false, false⟩]).modules ∧
    "zap" ∈ (scanModules [⟨"zap", true, true, false⟩,
      ⟨"off", true, false, true⟩, ⟨"mod", true, false, false⟩,
      ⟨"lost+found", true, false, false⟩]).removed ∧
    "off" ∉ (scanModules [⟨"zap", true, true, false⟩,
      ⟨"off", true, false, true⟩, ⟨"mod", true, false, false⟩,
      ⟨"lost+found", true, false, false⟩]).modules ∧
    "mod" ∈ (scanModules [⟨"zap", true, true, false⟩,
      ⟨"off", true, false, true⟩, ⟨"mod", true, false, false⟩,
      ⟨"lost+found", true, false, false⟩]).modules := by
  refine ⟨((prepare_img_scan_effects _ (by decide)).1 "lost+found"
    (by decide)).1, ?_, ?_, ?_⟩
  · exact (((prepare_img_scan_effects _ (by decide)).2
      ⟨"zap", true, true, false⟩ (by simp) rfl (by decide)).1 rfl).1
  · exact (((prepare_img_scan_effects _ (by decide)).2
      ⟨"off", true, false, true⟩ (by simp) rfl (by decide)).2.2.1 rfl rfl)
  · exact (((prepare_img_scan_effects _ (by decide)).2
      ⟨"mod", true, false, false⟩ (by simp) rfl (by decide)).2.2.2 rfl rfl)

/-- C8: `check_data` holds exactly when `/proc/mounts` has a `/data` line
that is not tmpfs and the device is unencrypted (`ro.crypto.state` equal
to `unencrypted` or unset) or the decryption service property
`init.svc.vold` is populated. -/
theorem check_data_iff (env : SysEnv) :
    check_data env = true ↔
      ((∃ l ∈ env.mounts, hasSub l.data " /data ".data = true ∧
          hasSub l.data "tmpfs".data = false) ∧
        (env.props "ro.crypto.state" = "unencrypted" ∨
          env.props "ro.crypto.state" = "" ∨
          env.props "init.svc.vold" ≠ "")) := by
  simp only [check_data]
  by_cases hmnt : ∃ l ∈ env.mounts, hasSub l.data " /data ".data = true ∧
      hasSub l.data "tmpfs".data = false
  · have : (env.mounts.any fun l =>
        hasSub l.data " /data ".data && !(hasSub l.data "tmpfs".data)) = true := by
      rcases hmnt with ⟨l, hl, h1, h2⟩
      exact List.any_eq_true.2 ⟨l, hl, by rw [h1, h2]; rfl⟩
    rw [this, if_pos rfl]
    simp only [hmnt, true_and]
    by_cases hc0 : env.props "ro.crypto.state" = ""
    · simp [hc0]
    · by_cases hc1 : env.props "ro.crypto.state" = "unencrypted"
      · simp [hc0, hc1]
      · simp [hc0, hc1]
  · have : (env.mounts.any fun l =>
        hasSub l.data " /data ".data && !(hasSub l.data "tmpfs".data)) = false := by
      rw [← Bool.not_eq_true, List.any_eq_true]
      intro ⟨l, hl, hb⟩
      rw [Bool.and_eq_true] at hb
      rcases hb with ⟨h1, h2⟩
      exact hmnt ⟨l, hl, h1, by simpa using h2⟩
    rw [this]
    simp [hmnt]

/-- Targets distribute over list append in an emission list. -/
theorem mountTargets_append (a b : List Mount) :
    mountTargets (a ++ b) = mountTargets a ++ mountTargets b := by
  simp [mountTargets]

/-- Targets distribute over `flatMap` in an emission list. -/
theorem mountTargets_flatMap {α : Type} (l : List α) (f : α → List Mount) :
    mountTargets (l.flatMap f) = l.flatMap fun a => mountTargets (f a) := by
  induction l with
  | nil => rfl
  | cons x xs ih => simp [mountTargets_append, ih]

/-- Sibling-name uniqueness gives pairwise distinct names. -/
theorem namesNodup_pairwise {l : List NodeEntry}
    (h : namesNodup l = true) :
    l.Pairwise (fun a b => a.name ≠ b.name) := by
  induction l with
  | nil => exact List.Pairwise.nil
  | cons c rest ih =>
    rcases namesNodup_cons.1 h with ⟨hhead, hrest⟩
    exact List.Pairwise.cons (fun d hd => Ne.symm (hhead d hd)) (ih hrest)

/-- Every mount target a `clone_skeleton` loop iteration emits for a child
sits strictly below the parent path under the child's name, and a `vendor`
child at the tree root never contributes a mount target. -/
theorem skelChild_targets {sep root : Bool} {p : List String}
    {recf : NodeEntry → List Mount} {c : NodeEntry}
    (hrec : ∀ t ∈ mountTargets (recf c), ∃ s, t = (p ++ [c.name]) ++ s) :
    ∀ t ∈ mountTargets (skelChild sep root p recf c),
      (∃ s, t = p ++ c.name :: s) ∧ (root = true → c.name ≠ "vendor") := by
  intro t ht
  by_cases hv : root = true ∧ c.name = "vendor"
  · rw [skelChild, if_pos hv] at ht
    by_cases hsep : sep = true <;> simp [hsep, mountTargets] at ht
  · rw [skelChild, if_neg hv] at ht
    have hnv : root = true → c.name ≠ "vendor" := by
      intro hr hn
      exact hv ⟨hr, hn⟩
    by_cases h8 : c.status &&& IS_MODULE ≠ 0
    · rw [if_pos h8] at ht
      by_cases hlnk : c.type = NType.lnk
      · simp [hlnk, mountTargets] at ht
      · rw [if_neg hlnk] at ht
        simp only [mountTargets, List.filterMap] at ht
        rcases List.mem_singleton.1 (by simpa [mountTargets] using ht) with rfl
        exact ⟨⟨[], by simp⟩, hnv⟩
    · rw [if_neg h8] at ht
      by_cases h6 : c.status &&& (IS_SKEL ||| IS_INTER) ≠ 0
      · rw [if_pos h6] at ht
        rcases hrec t ht with ⟨s, hs⟩
        exact ⟨⟨s, by simpa using hs⟩, hnv⟩
      · rw [if_neg h6] at ht
        by_cases h1 : c.status &&& IS_DUMMY ≠ 0
        · rw [if_pos h1] at ht
          by_cases hlnk : c.type = NType.lnk
          · simp [hlnk, mountTargets] at ht
          · rw [if_neg hlnk] at ht
            rcases List.mem_singleton.1 (by simpa [mountTargets] using ht) with rfl
            exact ⟨⟨[], by simp⟩, hnv⟩
        · rw [if_neg h1] at ht
          by_cases hlnk : c.type = NType.lnk
          · simp [hlnk, mountTargets] at ht
          · rw [if_neg hlnk] at ht
            rcases List.mem_singleton.1 (by simpa [mountTargets] using ht) with rfl
            exact ⟨⟨[], by simp⟩, hnv⟩

/-- Every mount target `clone_skeleton` emits lies at or below the node's
path. -/
theorem skelEmitF_targets_below (fs : MirrorFS) (sep : Bool) :
    ∀ (f : Nat) (root : Bool) (p : List String) (n : NodeEntry),
      ∀ t ∈ mountTargets (skelEmitF fs sep f root p n), ∃ s, t = p ++ s := by
  intro f
  induction f with
  | zero => intro root p n t ht; simp [skelEmitF, mountTargets] at ht
  | succ f ih =>
    intro root p n t ht
    rcases hfs : fs p with _ | listing
    · rw [skelEmitF, hfs] at ht
      simp [mountTargets] at ht
    · rw [skelEmitF, hfs] at ht
      rw [mountTargets_append] at ht
      rcases List.mem_append.1 ht with ht | ht
      · by_cases hsk : n.status &&& IS_SKEL ≠ 0
        · rw [if_pos hsk] at ht
          rcases List.mem_singleton.1 (by simpa [mountTargets] using ht) with rfl
          exact ⟨[], by simp⟩
        · rw [if_neg hsk] at ht
          simp [mountTargets] at ht
      · rw [mountTargets_flatMap] at ht
        rcases List.mem_flatMap.1 ht with ⟨c, _, htc⟩
        rcases (skelChild_targets (fun t' ht' => ih false (p ++ [c.name]) c t' ht')
          t htc).1 with ⟨s, hs⟩
        exact ⟨c.name :: s, hs⟩

/-- Unpacking the recursive sibling-name invariant one level. -/
theorem uniqNamesF_succ {f : Nat} {n : NodeEntry}
    (h : uniqNamesF (f + 1) n = true) :
    namesNodup n.children = true ∧
      ∀ c ∈ n.children, uniqNamesF f c = true := by
  rw [uniqNamesF, Bool.and_eq_true, List.all_eq_true] at h
  exact h

/-- The mounts a single `clone_skeleton` loop iteration emits for a child
have pairwise-distinct targets, given that a recursive clone does. -/
theorem skelChild_nodup {sep root : Bool} {p : List String}
    {recf : NodeEntry → List Mount} {c : NodeEntry}
    (hrec : c.status &&& (IS_SKEL ||| IS_INTER) ≠ 0 →
      (mountTargets (recf c)).Nodup) :
    (mountTargets (skelChild sep root p recf c)).Nodup := by
  by_cases hv : root = true ∧ c.name = "vendor"
  · rw [skelChild, if_pos hv]
    by_cases hsep : sep = true <;> simp [hsep, mountTargets]
  · rw [skelChild, if_neg hv]
    by_cases h8 : c.status &&& IS_MODULE ≠ 0
    · rw [if_pos h8]
      by_cases hlnk : c.type = NType.lnk <;>
        simp [hlnk, mountTargets]
    · rw [if_neg h8]
      by_cases h6 : c.status &&& (IS_SKEL ||| IS_INTER) ≠ 0
      · rw [if_pos h6]
        exact hrec h6
      · rw [if_neg h6]
        by_cases h1 : c.status &&& IS_DUMMY ≠ 0
        · rw [if_pos h1]
          by_cases hlnk : c.type = NType.lnk <;>
            simp [hlnk, mountTargets]
        · rw [if_neg h1]
          by_cases hlnk : c.type = NType.lnk <;>
            simp [hlnk, mountTargets]

/-- Under the sibling-name invariant, `clone_skeleton` never emits two
mounts with the same target. -/
theorem skelEmitF_targets_nodup (fs : MirrorFS) (sep : Bool) :
    ∀ (f : Nat) (root : Bool) (p : List String) (n : NodeEntry),
      uniqNamesF f n = true →
      (mountTargets (skelEmitF fs sep f root p n)).Nodup := by
  intro f
  induction f with
  | zero => intro root p n _; simp [skelEmitF, mountTargets]
  | succ f ih =>
    intro root p n hu
    rcases uniqNamesF_succ hu with ⟨hnn, hall⟩
    rcases hfs : fs p with _ | listing
    · rw [skelEmitF, hfs]
      simp [mountTargets]
    · rw [skelEmitF, hfs, mountTargets_append, mountTargets_flatMap]
      have hchild : ∀ c ∈ mergeDummies n.children listing,
          (mountTargets (skelChild sep root p
            (fun c' => skelEmitF fs sep f false (p ++ [c'.name]) c') c)).Nodup := by
        intro c hc
        refine skelChild_nodup (fun h6 => ?_)
        rcases mergeDummies_mem hc with hcc | hdu
        · exact ih false (p ++ [c.name]) c (hall c hcc)
        · exact absurd (by rw [hdu]; decide) h6
      have hpair : (mergeDummies n.children listing).Pairwise
          (Function.onFun List.Disjoint (fun c => mountTargets (skelChild sep
            root p (fun c' => skelEmitF fs sep f false (p ++ [c'.name]) c') c))) := by
        refine (namesNodup_pairwise (mergeDummies_namesNodup hnn)).imp ?_
        intro a b hne t hta htb
        rcases (skelChild_targets (fun t' ht' =>
          skelEmitF_targets_below fs sep f false (p ++ [a.name]) a t' ht') t hta).1
          with ⟨s1, h1⟩
        rcases (skelChild_targets (fun t' ht' =>
          skelEmitF_targets_below fs sep f false (p ++ [b.name]) b t' ht') t htb).1
          with ⟨s2, h2⟩
        rw [h1] at h2
        have h3 := append_cancel p h2
        injection h3 with hname _
        exact hne hname
      have hbody : ((mergeDummies n.children listing).flatMap
          (fun c => mountTargets (skelChild sep root p
            (fun c' => skelEmitF fs sep f false (p ++ [c'.name]) c') c))).Nodup :=
        List.nodup_flatMap.2 ⟨hchild, hpair⟩
      by_cases hsk : n.status &&& IS_SKEL ≠ 0
      · rw [if_pos hsk]
        refine List.Nodup.append (by simp [mountTargets]) hbody ?_
        intro t ht1 ht2
        have ht1' : t = p := List.mem_singleton.1 (by simpa [mountTargets] using ht1)
        rcases List.mem_flatMap.1 ht2 with ⟨c, _, htc⟩
        rcases (skelChild_targets (fun t' ht' =>
          skelEmitF_targets_below fs sep f false (p ++ [c.name]) c t' ht') t htc).1
          with ⟨s, hs⟩
        rw [ht1'] at hs
        have h0 : p ++ ([] : List String) = p ++ c.name :: s := by
          rw [List.append_nil]
          exact hs
        cases append_cancel p h0
      · rw [if_neg hsk]
        simpa [mountTargets] using hbody

/-- Every mount target `magic_mount` emits lies at or below the node's
path. -/
theorem magicMountF_targets_below (fs : MirrorFS) (sep : Bool) :
    ∀ (f : Nat) (root : Bool) (p : List String) (n : NodeEntry),
      ∀ t ∈ mountTargets (magicMountF fs sep f root p n), ∃ s, t = p ++ s := by
  intro f
  induction f with
  | zero => intro root p n t ht; simp [magicMountF, mountTargets] at ht
  | succ f ih =>
    intro root p n t ht
    rw [magicMountF] at ht
    by_cases h8 : n.status &&& IS_MODULE ≠ 0
    · rw [if_pos h8] at ht
      rcases List.mem_singleton.1 (by simpa [mountTargets] using ht) with rfl
      exact ⟨[], by simp⟩
    · rw [if_neg h8] at ht
      by_cases h4 : n.status &&& IS_SKEL ≠ 0
      · rw [if_pos h4] at ht
        exact skelEmitF_targets_below fs sep (f + 1) root p n t ht
      · rw [if_neg h4] at ht
        by_cases h2 : n.status &&& IS_INTER ≠ 0
        · rw [if_pos h2, mountTargets_flatMap] at ht
          rcases List.mem_flatMap.1 ht with ⟨c, _, htc⟩
          rcases ih false (p ++ [c.name]) c t htc with ⟨s, hs⟩
          exact ⟨c.name :: s, by simpa using hs⟩
        · rw [if_neg h2] at ht
          simp [mountTargets] at ht

/-- Under the sibling-name invariant, `magic_mount` never emits two mounts
with the same target. -/
theorem magicMountF_targets_nodup (fs : MirrorFS) (sep : Bool) :
    ∀ (f : Nat) (root : Bool) (p : List String) (n : NodeEntry),
      uniqNamesF f n = true →
      (mountTargets (magicMountF fs sep f root p n)).Nodup := by
  intro f
  induction f with
  | zero => intro root p n _; simp [magicMountF, mountTargets]
  | succ f ih =>
    intro root p n hu
    rcases uniqNamesF_succ hu with ⟨hnn, hall⟩
    rw [magicMountF]
    by_cases h8 : n.status &&& IS_MODULE ≠ 0
    · rw [if_pos h8]
      simp [mountTargets]
    · rw [if_neg h8]
      by_cases h4 : n.status &&& IS_SKEL ≠ 0
      · rw [if_pos h4]
        exact skelEmitF_targets_nodup fs sep (f + 1) root p n hu
      · rw [if_neg h4]
        by_cases h2 : n.status &&& IS_INTER ≠ 0
        · rw [if_pos h2, mountTargets_flatMap]
          refine List.nodup_flatMap.2 ⟨fun c hc => ih false (p ++ [c.name]) c
            (hall c hc), ?_⟩
          refine (namesNodup_pairwise hnn).imp ?_
          intro a b hne t hta htb
          rcases magicMountF_targets_below fs sep f false (p ++ [a.name]) a t hta
            with ⟨s1, h1⟩
          rcases magicMountF_targets_below fs sep f false (p ++ [b.name]) b t htb
            with ⟨s2, h2⟩
          rw [h1] at h2
          simp only [List.append_assoc, List.singleton_append] at h2
          have h3 := append_cancel p h2
          injection h3 with hname _
          exact hne hname
        · rw [if_neg h2]
          simp [mountTargets]

/-- C5: for a finished pair of trees — the `/system` tree and the extracted
`/vendor` tree, both satisfying the sibling-name invariant that `insert`
maintains — the bind-mount and tmpfs-mount operations emitted by
`magic_mount` (and the `clone_skeleton` calls it makes) contain no two
mounts with the same target path. -/
theorem magic_mount_no_duplicate_targets (fs : MirrorFS) (sep : Bool)
    (sys ven : NodeEntry) (hs : uniqNames sys = true)
    (hv : uniqNames ven = true) :
    (mountTargets (magic_mount fs sep true ["system"] sys ++
      magic_mount fs sep true ["vendor"] ven)).Nodup := by
  rw [mountTargets_append]
  refine List.Nodup.append
    (magicMountF_targets_nodup fs sep sys.size true ["system"] sys hs)
    (magicMountF_targets_nodup fs sep ven.size true ["vendor"] ven hv) ?_
  intro t ht1 ht2
  rcases magicMountF_targets_below fs sep sys.size true ["system"] sys t ht1
    with ⟨s1, h1⟩
  rcases magicMountF_targets_below fs sep ven.size true ["vendor"] ven t ht2
    with ⟨s2, h2⟩
  rw [h1] at h2
  simp at h2

/-- Witness for `magic_mount_no_duplicate_targets`: a skeletonized
`/system` with one module file and one mirror sibling, plus the vendor
placeholder tree. -/
theorem magic_mount_no_duplicate_targets_witness :
    (mountTargets (magic_mount
      (fun p => if p = ["system"] then
        some [("f", NType.reg), ("g", NType.dir)] else none) true true
      ["system"] (.mk "" "system" .unknown (IS_INTER ||| IS_SKEL)
        [.mk "m" "f" .reg IS_MODULE []]) ++
      magic_mount (fun p => if p = ["system"] then
        some [("f", NType.reg), ("g", NType.dir)] else none) true true
      ["vendor"] (placeholderNode "vendor"))).Nodup :=
  magic_mount_no_duplicate_targets _ true _ _ (by decide) (by decide)

/-- C6: skeleton synthesis of the system root — `clone_skeleton` invoked at
the root with a separate `/vendor` partition — never emits a bind-mount or
tmpfs mount whose target is `/system/vendor` or any path below it: the
`vendor` child is skipped (the mirror vendor tree is copied with `cp_afc`,
not mounted).  The statement quantifies over every mirror state, tree and
fuel. -/
theorem skeleton_never_mounts_under_vendor (fs : MirrorFS) (n : NodeEntry)
    (f : Nat) :
    ((mountTargets (skelEmitF fs true f true ["system"] n)).all
      fun t => !(["system", "vendor"].isPrefixOf t)) = true := by
  rw [List.all_eq_true]
  intro t ht
  cases f with
  | zero => simp [skelEmitF, mountTargets] at ht
  | succ f =>
    rcases hfs : fs ["system"] with _ | listing
    · rw [skelEmitF, hfs] at ht
      simp [mountTargets] at ht
    · rw [skelEmitF, hfs, mountTargets_append] at ht
      rcases List.mem_append.1 ht with ht | ht
      · by_cases hsk : NodeEntry.status n &&& IS_SKEL ≠ 0
        · rw [if_pos hsk] at ht
          have : t = ["system"] :=
            List.mem_singleton.1 (by simpa [mountTargets] using ht)
          rw [this]
          decide
        · rw [if_neg hsk] at ht
          simp [mountTargets] at ht
      · rw [mountTargets_flatMap] at ht
        rcases List.mem_flatMap.1 ht with ⟨c, _, htc⟩
        have h := skelChild_targets (fun t' ht' =>
          skelEmitF_targets_below fs true f false (["system"] ++ [c.name]) c t' ht')
          t htc
        rcases h.1 with ⟨s, hs⟩
        have hnv : c.name ≠ "vendor" := h.2 rfl
        rw [hs]
        simp only [List.isPrefixOf, List.singleton_append, Bool.not_eq_eq_eq_not,
          Bool.not_true, Bool.and_eq_false_imp]
        intro _
        simp [beq_eq_false_iff_ne, Ne.symm hnv]

/-- A member's subtree is no larger than the listing it belongs to. -/
theorem simpleListSize_mem {es : List (String × SimpleFS)}
    {e : String × SimpleFS} (h : e ∈ es) :
    SimpleFS.size e.2 ≤ simpleListSize es := by
  induction es with
  | nil => cases h
  | cons a rest ih =>
    rcases List.mem_cons.1 h with rfl | h2
    · rw [simpleListSize]
      exact Nat.le_add_right _ _
    · rw [simpleListSize]
      exact Nat.le_trans (ih h2) (Nat.le_add_left _ _)

/-- Every operation `simple_mount` emits targets an existing live path:
missing targets are skipped and never created. -/
theorem simpleMountF_targets_exist (lv : List String → Bool) :
    ∀ (f : Nat) (p : List String) (fs : SimpleFS),
      ∀ op ∈ simpleMountF lv f p fs, lv op.target = true := by
  intro f
  induction f with
  | zero =>
    intro p fs op hop
    cases fs <;> simp [simpleMountF] at hop
  | succ f ih =>
    intro p fs op hop
    cases fs with
    | reg => simp [simpleMountF] at hop
    | other => simp [simpleMountF] at hop
    | dir es =>
      rw [simpleMountF] at hop
      rcases List.mem_flatMap.1 hop with ⟨e, he, hbr⟩
      by_cases hdot : e.1 = "." ∨ e.1 = ".."
      · rw [if_pos hdot] at hbr
        cases hbr
      · rw [if_neg hdot] at hbr
        by_cases hlv : lv (p ++ [e.1]) = false
        · rw [if_pos hlv] at hbr
          cases hbr
        · rw [if_neg hlv] at hbr
          rcases he2 : e.2 with es2 | _ | _ <;> rw [he2] at hbr
          · exact ih (p ++ [e.1]) (.dir es2) op hbr
          · rcases List.mem_cons.1 hbr with rfl | hbr
            · simpa [SOp.target] using hlv
            · rcases List.mem_singleton.1 hbr with rfl
              simpa [SOp.target] using hlv
          · cases hbr

/-- Every operation `simple_mount` emits targets a path strictly below the
starting path. -/
theorem simpleMountF_targets_below (lv : List String → Bool) :
    ∀ (f : Nat) (p : List String) (fs : SimpleFS),
      ∀ op ∈ simpleMountF lv f p fs, ∃ nm s, op.target = p ++ nm :: s := by
  intro f
  induction f with
  | zero =>
    intro p fs op hop
    cases fs <;> simp [simpleMountF] at hop
  | succ f ih =>
    intro p fs op hop
    cases fs with
    | reg => simp [simpleMountF] at hop
    | other => simp [simpleMountF] at hop
    | dir es =>
      rw [simpleMountF] at hop
      rcases List.mem_flatMap.1 hop with ⟨e, he, hbr⟩
      by_cases hdot : e.1 = "." ∨ e.1 = ".."
      · rw [if_pos hdot] at hbr
        cases hbr
      · rw [if_neg hdot] at hbr
        by_cases hlv : lv (p ++ [e.1]) = false
        · rw [if_pos hlv] at hbr
          cases hbr
        · rw [if_neg hlv] at hbr
          rcases he2 : e.2 with es2 | _ | _ <;> rw [he2] at hbr
          · rcases ih (p ++ [e.1]) (.dir es2) op hbr with ⟨nm, s, hs⟩
            exact ⟨e.1, nm :: s, by simpa using hs⟩
          · rcases List.mem_cons.1 hbr with rfl | hbr
            · exact ⟨e.1, [], rfl⟩
            · rcases List.mem_singleton.1 hbr with rfl
              exact ⟨e.1, [], rfl⟩
          · cases hbr

/-- `simple_mount` emits the attribute clone and the bind-mount of a target
together: one is present exactly when the other is. -/
theorem simpleMountF_clone_iff_bind (lv : List String → Bool) :
    ∀ (f : Nat) (p : List String) (fs : SimpleFS) (t : List String),
      SOp.cloneAttr t ∈ simpleMountF lv f p fs ↔
        SOp.bind t ∈ simpleMountF lv f p fs := by
  intro f
  induction f with
  | zero =>
    intro p fs t
    cases fs <;> simp [simpleMountF]
  | succ f ih =>
    intro p fs t
    cases fs with
    | reg => simp [simpleMountF]
    | other => simp [simpleMountF]
    | dir es =>
      rw [simpleMountF]
      rw [List.mem_flatMap, List.mem_flatMap]
      refine exists_congr fun e => and_congr_right fun _ => ?_
      by_cases hdot : e.1 = "." ∨ e.1 = ".."
      · rw [if_pos hdot]
        simp
      · rw [if_neg hdot]
        by_cases hlv : lv (p ++ [e.1]) = false
        · rw [if_pos hlv]
          simp
        · rw [if_neg hlv]
          rcases e.2 with es2 | _ | _
          · exact ih (p ++ [e.1]) (.dir es2) t
          · simp
          · simp

/-- The bind-mounts `simple_mount` emits are exactly the regular source
files whose relative path passes the existence checks (`reachesReg`). -/
theorem simpleMountF_bind_iff_reaches (lv : List String → Bool) :
    ∀ (rel : List String) (f : Nat) (p : List String)
      (es : List (String × SimpleFS)),
      SimpleFS.size (.dir es) ≤ f →
      (SOp.bind (p ++ rel) ∈ simpleMountF lv f p (.dir es) ↔
        reachesReg lv p es rel = true) := by
  intro rel
  induction rel with
  | nil =>
    intro f p es _
    rw [reachesReg]
    simp only [Bool.false_eq_true, iff_false]
    intro hop
    rcases simpleMountF_targets_below lv f p (.dir es) _ hop with ⟨nm, s, hs⟩
    simp only [SOp.target, List.append_nil] at hs
    have h0 : p ++ ([] : List String) = p ++ nm :: s := by
      rw [List.append_nil]
      exact hs
    cases append_cancel p h0
  | cons nm rest ih =>
    intro f p es hf
    cases f with
    | zero =>
      rw [SimpleFS.size] at hf
      omega
    | succ f =>
      have hfle : ∀ e ∈ es, SimpleFS.size e.2 ≤ f := by
        intro e he
        have h1 := simpleListSize_mem he
        rw [SimpleFS.size] at hf
        omega
      rw [simpleMountF]
      cases rest with
      | nil =>
        rw [reachesReg]
        constructor
        · intro hop
          rcases List.mem_flatMap.1 hop with ⟨e, he, hbr⟩
          by_cases hdot : e.1 = "." ∨ e.1 = ".."
          · rw [if_pos hdot] at hbr
            cases hbr
          · rw [if_neg hdot] at hbr
            by_cases hlv : lv (p ++ [e.1]) = false
            · rw [if_pos hlv] at hbr
              cases hbr
            · rw [if_neg hlv] at hbr
              rcases he2 : e.2 with es2 | _ | _ <;> rw [he2] at hbr
              · rcases simpleMountF_targets_below lv f (p ++ [e.1]) (.dir es2)
                  _ hbr with ⟨nm2, s2, hs⟩
                simp only [SOp.target] at hs
                have h3 : [nm] = e.1 :: nm2 :: s2 :=
                  append_cancel p (by simpa using hs)
                injection h3 with _ h4
                cases h4
              · have hbrx : p ++ [nm] = p ++ [e.1] := by
                  have hiff : SOp.bind (p ++ [nm]) ∈
                      [SOp.cloneAttr (p ++ [e.1]), SOp.bind (p ++ [e.1])] ↔
                      p ++ [nm] = p ++ [e.1] := by simp
                  exact hiff.1 hbr
                have h3 := append_cancel p hbrx
                injection h3 with hnm0 _
                have hnm : e.1 = nm := hnm0.symm
                rw [Bool.and_eq_true, Bool.and_eq_true]
                refine ⟨⟨by rw [← hnm]; simpa using hdot,
                  by rw [← hnm]; simpa using hlv⟩, ?_⟩
                refine List.any_eq_true.2 ⟨e, he, ?_⟩
                rw [Bool.and_eq_true, he2]
                exact ⟨by simp [hnm], rfl⟩
              · cases hbr
        · intro hreach
          rw [Bool.and_eq_true, Bool.and_eq_true] at hreach
          rcases hreach with ⟨⟨hdot, hlv⟩, hany⟩
          rcases List.any_eq_true.1 hany with ⟨e, he, hbe⟩
          rw [Bool.and_eq_true] at hbe
          rcases hbe with ⟨hnmb, hreg⟩
          have hnm : e.1 = nm := by simpa using hnmb
          rcases he2 : e.2 with es2 | _ | _ <;> rw [he2] at hreg
          · cases hreg
          · refine List.mem_flatMap.2 ⟨e, he, ?_⟩
            rw [if_neg (by rw [hnm]; simpa using hdot),
              if_neg (by rw [hnm]; simp [hlv]), he2]
            simp [hnm]
          · cases hreg
      | cons r1 r2 =>
        rw [reachesReg]
        constructor
        · intro hop
          rcases List.mem_flatMap.1 hop with ⟨e, he, hbr⟩
          by_cases hdot : e.1 = "." ∨ e.1 = ".."
          · rw [if_pos hdot] at hbr
            cases hbr
          · rw [if_neg hdot] at hbr
            by_cases hlv : lv (p ++ [e.1]) = false
            · rw [if_pos hlv] at hbr
              cases hbr
            · rw [if_neg hlv] at hbr
              rcases he2 : e.2 with es2 | _ | _ <;> rw [he2] at hbr
              · rcases simpleMountF_targets_below lv f (p ++ [e.1]) (.dir es2)
                  _ hbr with ⟨nm2, s2, hs⟩
                simp only [SOp.target] at hs
                have h3 : nm :: r1 :: r2 = e.1 :: nm2 :: s2 :=
                  append_cancel p (by simpa using hs)
                injection h3 with hnm h4
                have hbr2 : SOp.bind ((p ++ [nm]) ++ (r1 :: r2)) ∈
                    simpleMountF lv f (p ++ [nm]) (.dir es2) := by
                  rw [hnm] at hbr ⊢
                  have h5 : (p ++ [e.1]) ++ (r1 :: r2) = p ++ e.1 :: r1 :: r2 := by
                    simp
                  rw [h5]
                  exact hbr
                have hreach := (ih f (p ++ [nm]) es2 (by
                  rw [← he2]
                  exact hfle e he)).1 hbr2
                rw [Bool.and_eq_true, Bool.and_eq_true]
                refine ⟨⟨by rw [hnm]; simpa using hdot,
                  by rw [hnm]; simpa using hlv⟩, ?_⟩
                refine List.any_eq_true.2 ⟨e, he, ?_⟩
                rw [Bool.and_eq_true, he2]
                exact ⟨by simp [hnm.symm], hreach⟩
              · have hbrx : p ++ nm :: r1 :: r2 = p ++ [e.1] := by
                  have hiff : SOp.bind (p ++ nm :: r1 :: r2) ∈
                      [SOp.cloneAttr (p ++ [e.1]), SOp.bind (p ++ [e.1])] ↔
                      p ++ nm :: r1 :: r2 = p ++ [e.1] := by simp
                  exact hiff.1 hbr
                have h3 := append_cancel p hbrx
                injection h3 with _ h4
                cases h4
              · cases hbr
        · intro hreach
          rw [Bool.and_eq_true, Bool.and_eq_true] at hreach
          rcases hreach with ⟨⟨hdot, hlv⟩, hany⟩
          rcases List.any_eq_true.1 hany with ⟨e, he, hbe⟩
          rw [Bool.and_eq_true] at hbe
          rcases hbe with ⟨hnmb, hrec⟩
          have hnm : e.1 = nm := by simpa using hnmb
          rcases he2 : e.2 with es2 | _ | _ <;> rw [he2] at hrec
          · refine List.mem_flatMap.2 ⟨e, he, ?_⟩
            rw [if_neg (by rw [hnm]; simpa using hdot),
              if_neg (by rw [hnm]; simp [hlv]), he2]
            have hrec2 : SOp.bind ((p ++ [nm]) ++ (r1 :: r2)) ∈
                simpleMountF lv f (p ++ [nm]) (.dir es2) :=
              (ih f (p ++ [nm]) es2 (by rw [← he2]; exact hfle e he)).2 hrec
            rw [hnm]
            have h5 : (p ++ [nm]) ++ (r1 :: r2) = p ++ nm :: r1 :: r2 := by
              simp
            rw [h5] at hrec2
            exact hrec2
          · cases hrec
          · cases hrec

/-- C9: for every invocation of the simple mounter on a source directory
and a target path: every emitted operation targets an existing live path
(missing targets are silently skipped, never created); the attribute clone
from target onto the source overlay file and the bind-mount of source onto
target are emitted together; and a bind-mount is emitted exactly for the
regular files reachable through subdirectories whose targets all exist. -/
theorem simple_mount_spec (lv : List String → Bool) (p : List String)
    (es : List (String × SimpleFS)) :
    (∀ op ∈ simple_mount lv p (.dir es), lv op.target = true) ∧
    (∀ t, SOp.cloneAttr t ∈ simple_mount lv p (.dir es) ↔
      SOp.bind t ∈ simple_mount lv p (.dir es)) ∧
    (∀ rel, SOp.bind (p ++ rel) ∈ simple_mount lv p (.dir es) ↔
      reachesReg lv p es rel = true) :=
  ⟨fun op hop => simpleMountF_targets_exist lv _ p _ op hop,
    fun t => simpleMountF_clone_iff_bind lv _ p _ t,
    fun rel => simpleMountF_bind_iff_reaches lv rel _ p es (Nat.le_refl _)⟩

/-- Witness for `simple_mount_spec`: an overlay shipping `etc/hosts` (live
target exists: bind-mount and attribute clone emitted) and `etc/ghost`
(target missing: skipped). -/
theorem simple_mount_spec_witness :
    SOp.bind (["system"] ++ ["etc", "hosts"]) ∈
      simple_mount
        (fun q => (q == ["system", "etc"]) || (q == ["system", "etc", "hosts"]))
        ["system"]
        (.dir [("etc", .dir [("hosts", .reg), ("ghost", .reg)])]) ∧
    SOp.cloneAttr (["system"] ++ ["etc", "hosts"]) ∈
      simple_mount
        (fun q => (q == ["system", "etc"]) || (q == ["system", "etc", "hosts"]))
        ["system"]
        (.dir [("etc", .dir [("hosts", .reg), ("ghost", .reg)])]) ∧
    ¬ SOp.bind (["system"] ++ ["etc", "ghost"]) ∈
      simple_mount
        (fun q => (q == ["system", "etc"]) || (q == ["system", "etc", "hosts"]))
        ["system"]
        (.dir [("etc", .dir [("hosts", .reg), ("ghost", .reg)])]) := by
  have h := simple_mount_spec
    (fun q => (q == ["system", "etc"]) || (q == ["system", "etc", "hosts"]))
    ["system"] [("etc", .dir [("hosts", .reg), ("ghost", .reg)])]
  have hb := (h.2.2 ["etc", "hosts"]).2 (by decide)
  refine ⟨hb, (h.2.1 _).2 hb, fun hg => ?_⟩
  have := (h.2.2 ["etc", "ghost"]).1 hg
  revert this
  decide

/-- C3: the code-level divergence. In the live system `/system/egg` is a
resolvable symlink to a regular file while module `m` ships `system/egg`
as a regular file: the specification's clone condition holds for the child
(target is itself a symlink; not root-vendor), so the parent should be
skeletonized, but `create_module_tree` leaves the parent without `IS_SKEL`
because `xstat` (= `stat(2)`) follows the symlink and its `S_ISLNK` test —
condition 3 of the code's own comment — can never fire. -/
theorem clone_condition_symlink_branch_dead :
    specCloneCond lnkTgtLive true ["system"] "egg" NType.reg = true ∧
    lnkTgtResult.status &&& IS_SKEL = 0 ∧
    lnkTgtResult.status = IS_INTER := by
  decide

end Bootstages
